import Mathlib

/-!
Verification of the `ngram_analyzer` utility (LanguageAnalysis repository).

The development shallowly embeds the core logic of
`util/NGramAnalysis/main.cpp`: the sequence normalizer
(`replaceSpecialSequences`), the n-gram aggregation loop of `main`, the
vowel/consonant classification loop, and the top-K display selection of the
report code.  Words are embedded as `List Char`; the C++
`std::unordered_map<std::string, ...>` tables are embedded as association
lists with unique keys (insertion-ordered; all verified properties are
insensitive to iteration order); weights are embedded as `Int`, the exact
arithmetic of the `int64_t` variant (the floating-point variant performs the
same additions in `double`).
-/

/-- Vowel symbols, from the source constant `VOWELS` ("eoaiuYW"):
'Y' and 'W' represent 'y' and 'w' as vowels. -/
def VOWELS : List Char := ['e', 'o', 'a', 'i', 'u', 'Y', 'W']

/-- Consonant symbols, from the source constant `CONSONANTS`
("tnhsrldymwgcfbpkvjxzqQ"): 'Q' represents "qu". -/
def CONSONANTS : List Char :=
  ['t', 'n', 'h', 's', 'r', 'l', 'd', 'y', 'm', 'w', 'g',
   'c', 'f', 'b', 'p', 'k', 'v', 'j', 'x', 'z', 'q', 'Q']

/-- Embedding of `replaceSpecialSequences`: a single left-to-right scan with
one-character lookahead.  The current character `c0` is always emitted; if a
next character `c1` exists then
a 'y' preceded by 'a'/'e'/'o'/'u' or by any consonant is replaced by 'Y'
(both characters consumed, `c0` and 'Y' emitted),
a 'w' preceded by 'a'/'e'/'o' is replaced by 'W' likewise, and
"qu" is replaced by the single symbol 'Q'.
The branch conditions are mutually exclusive in the source (`c1` cannot be
'y'/'w' and 'u' at once), so the if-chain reproduces the C++ control flow. -/
def replaceSpecialSequences : List Char → List Char
  | [] => []
  | [c0] => [c0]
  | c0 :: c1 :: rest =>
    if c1 = 'y' ∧ (c0 = 'a' ∨ c0 = 'e' ∨ c0 = 'o' ∨ c0 = 'u' ∨ c0 ∈ CONSONANTS) then
      c0 :: 'Y' :: replaceSpecialSequences rest
    else if c1 = 'w' ∧ (c0 = 'a' ∨ c0 = 'e' ∨ c0 = 'o') then
      c0 :: 'W' :: replaceSpecialSequences rest
    else if c0 = 'q' ∧ c1 = 'u' then
      'Q' :: replaceSpecialSequences rest
    else
      c0 :: replaceSpecialSequences (c1 :: rest)

/-- An n-gram key: a sequence of symbols. -/
abbrev NGram := List Char

/-- Embedding of `NGramMap` (`std::unordered_map<std::string, int64_t>`):
an association list whose keys are kept unique. -/
abbrev NGramMap := List (NGram × Int)

/-- `counts[ngram] += weight` with default value 0: add `w` to the entry for
`k`, appending a fresh entry if `k` is absent. -/
def addWeight : NGramMap → NGram → Int → NGramMap
  | [], k, w => [(k, w)]
  | (k', w') :: rest, k, w =>
    if k' = k then (k', w' + w) :: rest else (k', w') :: addWeight rest k w

/-- `table[ngram] = weight`: overwrite the entry for `k` (assignment, not
accumulation), appending a fresh entry if `k` is absent. -/
def setWeight : NGramMap → NGram → Int → NGramMap
  | [], k, w => [(k, w)]
  | (k', w') :: rest, k, w =>
    if k' = k then (k, w) :: rest else (k', w') :: setWeight rest k w

/-- Lookup of the weight stored under key `k`, if any. -/
def findWeight : NGramMap → NGram → Option Int
  | [], _ => none
  | (k', w') :: rest, k => if k' = k then some w' else findWeight rest k

/-- The sum of all values stored in a table. -/
def sumValues (m : NGramMap) : Int := (m.map Prod.snd).sum

/-- The keys of a table, in insertion order. -/
def mapKeys (m : NGramMap) : List NGram := m.map Prod.fst

/-- The aggregation state of `main`: the vector `ngramMaps` of per-length
frequency tables and the parallel vector `totalWeights` of per-length
totals. -/
structure AnalysisState where
  ngramMaps : List NGramMap
  totalWeights : List Int
deriving Repr, DecidableEq

/-- Embedding of the `resize` step: if the vectors are too short to hold
index `wordLength`, both are extended (with empty tables and zero totals)
to length `wordLength + 1`. -/
def ensureSize (s : AnalysisState) (wordLength : Nat) : AnalysisState :=
  if s.ngramMaps.length < wordLength + 1 then
    { ngramMaps := s.ngramMaps ++ List.replicate (wordLength + 1 - s.ngramMaps.length) [],
      totalWeights := s.totalWeights ++ List.replicate (wordLength + 1 - s.totalWeights.length) 0 }
  else s

/-- Embedding of the inner counting statements of `main`: the (already
normalized) n-gram is bucketed by its size `ngram.size()`; its weight is
added to that bucket's table entry and to that bucket's running total. -/
def countNgram (s : AnalysisState) (ngram : NGram) (weight : Int) : AnalysisState :=
  { ngramMaps :=
      s.ngramMaps.set ngram.length
        (addWeight (s.ngramMaps.getD ngram.length []) ngram weight),
    totalWeights :=
      s.totalWeights.set ngram.length
        (s.totalWeights.getD ngram.length 0 + weight) }

/-- The raw substrings enumerated by the two nested loops of `main`:
`word.substr(i, n)` for `n` from 1 to `wordLength` (outer) and `i` from 0 to
`wordLength - n` (inner), in loop order. -/
def rawNgrams (word : List Char) : List (List Char) :=
  (List.range word.length).flatMap fun n1 =>
    (List.range (word.length - n1)).map fun i => (word.drop i).take (n1 + 1)

/-- Processing of one `(word, weight)` pair by `main`: resize the vectors,
then for each raw substring normalize it with `replaceSpecialSequences` and
count the result. -/
def processWord (s : AnalysisState) (word : List Char) (weight : Int) : AnalysisState :=
  (rawNgrams word).foldl
    (fun st sub => countNgram st (replaceSpecialSequences sub) weight)
    (ensureSize s word.length)

/-- The aggregation loop of `main` over the whole word/weight source,
starting from empty vectors. -/
def analyze (source : List (List Char × Int)) : AnalysisState :=
  source.foldl (fun st wv => processWord st wv.1 wv.2) ⟨[], []⟩

/-- `ngram.find_first_not_of(VOWELS) == npos`: every symbol of the n-gram is
in the vowel alphabet. -/
def isVowelNgram (k : NGram) : Bool := k.all fun c => decide (c ∈ VOWELS)

/-- `ngram.find_first_not_of(CONSONANTS) == npos`: every symbol of the
n-gram is in the consonant alphabet. -/
def isConsonantNgram (k : NGram) : Bool := k.all fun c => decide (c ∈ CONSONANTS)

/-- The classification state of `main`: the derived vowel-only and
consonant-only tables and their running totals. -/
structure ClassifyState where
  consonantNgrams : NGramMap
  vowelNgrams : NGramMap
  totalVowelNgrams : Int
  totalConsonantNgrams : Int
deriving Repr, DecidableEq

/-- Embedding of the classification loop body: an all-vowel n-gram's weight
is assigned (overwriting) into the vowel table and added to the vowel total;
otherwise an all-consonant n-gram's weight is assigned into the consonant
table and added to the consonant total; any other n-gram is skipped. -/
def classifyEntry (cs : ClassifyState) (e : NGram × Int) : ClassifyState :=
  if isVowelNgram e.1 then
    { cs with vowelNgrams := setWeight cs.vowelNgrams e.1 e.2,
              totalVowelNgrams := cs.totalVowelNgrams + e.2 }
  else if isConsonantNgram e.1 then
    { cs with consonantNgrams := setWeight cs.consonantNgrams e.1 e.2,
              totalConsonantNgrams := cs.totalConsonantNgrams + e.2 }
  else cs

/-- The classification pass of `main`: fold over every per-length table and
every entry in it. -/
def classify (maps : List NGramMap) : ClassifyState :=
  maps.foldl (fun cs m => m.foldl classifyEntry cs) ⟨[], [], 0, 0⟩

/-- The report's per-length entry ordering: sort descending by weight
(`std::sort` with comparator `b.second < a.second`; ties in unspecified
order, matching the unstable sort). -/
def sortedByWeight (m : NGramMap) : NGramMap :=
  m.mergeSort fun a b => decide (b.2 ≤ a.2)

/-- The entries actually printed by the top-K display loop
(`for j = 0; j < min(top_k, size); ++j`). -/
def displayedEntries (m : NGramMap) (topK : Nat) : NGramMap :=
  (sortedByWeight m).take (min topK m.length)


/-- The loop invariant of the aggregation pass: the two vectors stay aligned;
each per-length total equals the sum of that length's table; every key in
the table at index `n` has length `n`; keys within a table are unique; and
the table at index 0 stays empty. -/
structure AnalysisInv (s : AnalysisState) : Prop where
  len_eq : s.ngramMaps.length = s.totalWeights.length
  sums : ∀ n, sumValues (s.ngramMaps.getD n []) = s.totalWeights.getD n 0
  keylen : ∀ n k, k ∈ mapKeys (s.ngramMaps.getD n []) → k.length = n
  nodup : ∀ n, (mapKeys (s.ngramMaps.getD n [])).Nodup
  zeroEmpty : s.ngramMaps.getD 0 [] = []

theorem getD_set_self {α : Type} (l : List α) (i : Nat) (a d : α)
    (h : i < l.length) : (l.set i a).getD i d = a := by
  simp [List.getD_eq_getElem?_getD, List.getElem?_set, h]

theorem getD_set_ne {α : Type} (l : List α) {i j : Nat} (a d : α)
    (h : i ≠ j) : (l.set i a).getD j d = l.getD j d := by
  simp [List.getD_eq_getElem?_getD, List.getElem?_set, h]

theorem getD_append_replicate {α : Type} (l : List α) (n : Nat) (d : α)
    (i : Nat) : (l ++ List.replicate n d).getD i d = l.getD i d := by
  rcases lt_or_le i l.length with h | h
  · simp [List.getD_eq_getElem?_getD, List.getElem?_append_left h]
  · rw [List.getD_eq_getElem?_getD, List.getD_eq_getElem?_getD,
      List.getElem?_append_right h, List.getElem?_eq_none h,
      List.getElem?_replicate]
    split <;> simp

theorem length_replaceSpecialSequences (l : List Char) :
    (replaceSpecialSequences l).length ≤ l.length := by
  induction l using replaceSpecialSequences.induct with
  | case1 => simp [replaceSpecialSequences]
  | case2 c0 => simp [replaceSpecialSequences]
  | case3 c0 c1 rest h ih =>
    simp only [replaceSpecialSequences, if_pos h, List.length_cons]
    omega
  | case4 c0 c1 rest h1 h2 ih =>
    simp only [replaceSpecialSequences, if_neg h1, if_pos h2, List.length_cons]
    omega
  | case5 c0 c1 rest h1 h2 h3 ih =>
    simp only [replaceSpecialSequences, if_neg h1, if_neg h2, if_pos h3,
      List.length_cons]
    omega
  | case6 c0 c1 rest h1 h2 h3 ih =>
    simp only [replaceSpecialSequences, if_neg h1, if_neg h2, if_neg h3,
      List.length_cons] at ih ⊢
    omega

theorem replaceSpecialSequences_ne_nil (l : List Char) (h : l ≠ []) :
    replaceSpecialSequences l ≠ [] := by
  match l with
  | [] => exact absurd rfl h
  | [c0] => simp [replaceSpecialSequences]
  | c0 :: c1 :: rest =>
    simp only [replaceSpecialSequences]
    split
    · simp
    · split
      · simp
      · split <;> simp

theorem sumValues_addWeight (m : NGramMap) (k : NGram) (w : Int) :
    sumValues (addWeight m k w) = sumValues m + w := by
  induction m with
  | nil => simp [addWeight, sumValues]
  | cons e rest ih =>
    obtain ⟨k', w'⟩ := e
    by_cases h : k' = k
    · simp [addWeight, h, sumValues]
      omega
    · simp only [addWeight, if_neg h, sumValues, List.map_cons, List.sum_cons]
      simp only [sumValues] at ih
      omega

theorem mapKeys_addWeight (m : NGramMap) (k : NGram) (w : Int) :
    mapKeys (addWeight m k w) =
      if k ∈ mapKeys m then mapKeys m else mapKeys m ++ [k] := by
  induction m with
  | nil => simp [addWeight, mapKeys]
  | cons e rest ih =>
    obtain ⟨k', w'⟩ := e
    by_cases h : k' = k
    · subst h
      simp [addWeight, mapKeys]
    · have hne : k ≠ k' := fun hk => h hk.symm
      simp only [addWeight, if_neg h, mapKeys, List.map_cons] at ih ⊢
      rw [ih]
      by_cases hm : k ∈ List.map Prod.fst rest
      · simp [hm]
      · simp [hm, hne]

theorem mem_mapKeys_iff_findWeight (m : NGramMap) (k : NGram) :
    k ∈ mapKeys m ↔ findWeight m k ≠ none := by
  induction m with
  | nil => simp [mapKeys, findWeight]
  | cons e rest ih =>
    obtain ⟨k', w'⟩ := e
    by_cases h : k' = k
    · simp [mapKeys, findWeight, h]
    · have hne : k ≠ k' := fun hk => h hk.symm
      simp only [mapKeys, List.map_cons, List.mem_cons, findWeight, if_neg h] at ih ⊢
      constructor
      · intro hmem
        rcases hmem with h1 | h1
        · exact absurd h1 hne
        · exact ih.mp h1
      · intro hf
        exact Or.inr (ih.mpr hf)

theorem nodup_mapKeys_addWeight (m : NGramMap) (k : NGram) (w : Int)
    (h : (mapKeys m).Nodup) : (mapKeys (addWeight m k w)).Nodup := by
  rw [mapKeys_addWeight]
  by_cases hm : k ∈ mapKeys m
  · simpa [hm] using h
  · simp only [hm, if_false]
    simp [List.nodup_append, h, hm]

theorem foldl_preserve {α β : Type} {P : β → Prop} (f : β → α → β) :
    ∀ (l : List α) (b : β), (∀ b' a, a ∈ l → P b' → P (f b' a)) → P b →
      P (l.foldl f b)
  | [], _, _, hb => hb
  | a :: l, b, h, hb =>
    foldl_preserve f l (f b a)
      (fun b' a' ha' => h b' a' (List.mem_cons_of_mem a ha'))
      (h b a (List.mem_cons_self a l) hb)

theorem analysisInv_init : AnalysisInv ⟨[], []⟩ := by
  constructor <;> simp [sumValues, mapKeys, List.getD]

theorem analysisInv_ensureSize {s : AnalysisState} (h : AnalysisInv s)
    (wordLength : Nat) : AnalysisInv (ensureSize s wordLength) := by
  unfold ensureSize
  split
  · refine ⟨?_, ?_, ?_, ?_, ?_⟩
    · simp [h.len_eq]
    · intro n
      simp only [getD_append_replicate]
      exact h.sums n
    · intro n k hk
      simp only [getD_append_replicate] at hk
      exact h.keylen n k hk
    · intro n
      simp only [getD_append_replicate]
      exact h.nodup n
    · simp only [getD_append_replicate]
      exact h.zeroEmpty
  · exact h

theorem analysisInv_countNgram {s : AnalysisState} (h : AnalysisInv s)
    (ngram : NGram) (w : Int) (hk : ngram ≠ []) :
    AnalysisInv (countNgram s ngram w) := by
  by_cases hlt : ngram.length < s.ngramMaps.length
  · have hlt2 : ngram.length < s.totalWeights.length := h.len_eq ▸ hlt
    refine ⟨?_, ?_, ?_, ?_, ?_⟩
    · simp [countNgram, h.len_eq]
    · intro n
      by_cases hn : ngram.length = n
      · subst hn
        rw [countNgram]
        simp only
        rw [getD_set_self _ _ _ _ hlt, getD_set_self _ _ _ _ hlt2,
          sumValues_addWeight, h.sums ngram.length]
      · rw [countNgram]
        simp only
        rw [getD_set_ne _ _ _ hn, getD_set_ne _ _ _ hn]
        exact h.sums n
    · intro n k hkmem
      by_cases hn : ngram.length = n
      · subst hn
        rw [countNgram] at hkmem
        simp only at hkmem
        rw [getD_set_self _ _ _ _ hlt, mapKeys_addWeight] at hkmem
        by_cases hm : ngram ∈ mapKeys (s.ngramMaps.getD ngram.length [])
        · rw [if_pos hm] at hkmem
          exact h.keylen _ k hkmem
        · rw [if_neg hm] at hkmem
          rcases List.mem_append.mp hkmem with h1 | h1
          · exact h.keylen _ k h1
          · simp at h1
            subst h1
            rfl
      · rw [countNgram] at hkmem
        simp only at hkmem
        rw [getD_set_ne _ _ _ hn] at hkmem
        exact h.keylen n k hkmem
    · intro n
      by_cases hn : ngram.length = n
      · subst hn
        rw [countNgram]
        simp only
        rw [getD_set_self _ _ _ _ hlt]
        exact nodup_mapKeys_addWeight _ _ _ (h.nodup ngram.length)
      · rw [countNgram]
        simp only
        rw [getD_set_ne _ _ _ hn]
        exact h.nodup n
    · have hzero : ngram.length ≠ 0 := by
        have := List.length_pos.mpr hk
        omega
      rw [countNgram]
      simp only
      rw [getD_set_ne _ _ _ hzero]
      exact h.zeroEmpty
  · have heq : countNgram s ngram w = s := by
      have h1 : s.ngramMaps.set ngram.length
          (addWeight (s.ngramMaps.getD ngram.length []) ngram w) = s.ngramMaps :=
        List.set_eq_of_length_le (le_of_not_lt hlt)
      have h2 : s.totalWeights.set ngram.length
          (s.totalWeights.getD ngram.length 0 + w) = s.totalWeights :=
        List.set_eq_of_length_le (h.len_eq ▸ le_of_not_lt hlt)
      rw [countNgram, h1, h2]
    rw [heq]
    exact h

theorem mem_rawNgrams_ne_nil {word : List Char} {sub : List Char}
    (h : sub ∈ rawNgrams word) : sub ≠ [] := by
  simp only [rawNgrams, List.mem_flatMap, List.mem_map, List.mem_range] at h
  obtain ⟨n1, hn1, i, hi, rfl⟩ := h
  have hrw : ((word.drop i).take (n1 + 1)).length = min (n1 + 1) (word.length - i) := by
    simp [List.length_take, List.length_drop]
  intro hnil
  rw [hnil] at hrw
  simp at hrw
  omega

theorem analysisInv_processWord {s : AnalysisState} (h : AnalysisInv s)
    (word : List Char) (w : Int) : AnalysisInv (processWord s word w) := by
  unfold processWord
  refine foldl_preserve _ _ _ ?_ (analysisInv_ensureSize h word.length)
  intro s' sub hsub hs'
  exact analysisInv_countNgram hs' _ w
    (replaceSpecialSequences_ne_nil sub (mem_rawNgrams_ne_nil hsub))

theorem analysisInv_analyze (source : List (List Char × Int)) :
    AnalysisInv (analyze source) := by
  unfold analyze
  refine foldl_preserve _ _ _ ?_ analysisInv_init
  intro s wv _ hs
  exact analysisInv_processWord hs wv.1 wv.2

theorem setWeight_of_not_mem (m : NGramMap) (k : NGram) (w : Int)
    (h : k ∉ mapKeys m) : setWeight m k w = m ++ [(k, w)] := by
  induction m with
  | nil => simp [setWeight]
  | cons e rest ih =>
    obtain ⟨k', w'⟩ := e
    simp only [mapKeys, List.map_cons, List.mem_cons] at h
    push_neg at h
    have hne : k' ≠ k := fun hk => h.1 hk.symm
    rw [setWeight, if_neg hne, List.cons_append]
    congr 1
    exact ih (by simp [mapKeys, h.2])

theorem findWeight_setWeight_self (m : NGramMap) (k : NGram) (w : Int) :
    findWeight (setWeight m k w) k = some w := by
  induction m with
  | nil => simp [setWeight, findWeight]
  | cons e rest ih =>
    obtain ⟨k', w'⟩ := e
    by_cases h : k' = k
    · simp [setWeight, findWeight, h]
    · simp [setWeight, findWeight, h, ih]

theorem findWeight_setWeight_ne (m : NGramMap) (k k2 : NGram) (w : Int)
    (h : k2 ≠ k) : findWeight (setWeight m k w) k2 = findWeight m k2 := by
  have hne : k ≠ k2 := fun hk => h hk.symm
  induction m with
  | nil => simp [setWeight, findWeight, hne]
  | cons e rest ih =>
    obtain ⟨k', w'⟩ := e
    by_cases hh : k' = k
    · subst hh
      simp [setWeight, findWeight, hne]
    · simp [setWeight, findWeight, hh, ih]

theorem mem_mapKeys_setWeight (m : NGramMap) (k k2 : NGram) (w : Int) :
    k2 ∈ mapKeys (setWeight m k w) ↔ k2 ∈ mapKeys m ∨ k2 = k := by
  induction m with
  | nil => simp [setWeight, mapKeys]
  | cons e rest ih =>
    obtain ⟨k', w'⟩ := e
    by_cases h : k' = k
    · subst h
      simp [setWeight, mapKeys, List.mem_cons]
      tauto
    · simp only [setWeight, if_neg h, mapKeys, List.map_cons, List.mem_cons]
      simp only [mapKeys] at ih
      rw [ih]
      tauto

theorem sumValues_setWeight_of_not_mem (m : NGramMap) (k : NGram) (w : Int)
    (h : k ∉ mapKeys m) : sumValues (setWeight m k w) = sumValues m + w := by
  rw [setWeight_of_not_mem m k w h]
  simp [sumValues]

theorem mapKeys_setWeight_of_not_mem (m : NGramMap) (k : NGram) (w : Int)
    (h : k ∉ mapKeys m) : mapKeys (setWeight m k w) = mapKeys m ++ [k] := by
  rw [setWeight_of_not_mem m k w h]
  simp [mapKeys]

theorem classify_eq_foldl_flatten (maps : List NGramMap) :
    classify maps = maps.flatten.foldl classifyEntry ⟨[], [], 0, 0⟩ := by
  rw [classify, List.foldl_flatten]

theorem classifyEntry_vowelNgrams (cs : ClassifyState) (e : NGram × Int) :
    (classifyEntry cs e).vowelNgrams =
      if isVowelNgram e.1 then setWeight cs.vowelNgrams e.1 e.2
      else cs.vowelNgrams := by
  unfold classifyEntry
  split_ifs <;> rfl

theorem classifyEntry_consonantNgrams (cs : ClassifyState) (e : NGram × Int) :
    (classifyEntry cs e).consonantNgrams =
      if isVowelNgram e.1 then cs.consonantNgrams
      else if isConsonantNgram e.1 then setWeight cs.consonantNgrams e.1 e.2
      else cs.consonantNgrams := by
  unfold classifyEntry
  split_ifs <;> rfl

theorem classifyEntry_totalVowelNgrams (cs : ClassifyState) (e : NGram × Int) :
    (classifyEntry cs e).totalVowelNgrams =
      if isVowelNgram e.1 then cs.totalVowelNgrams + e.2
      else cs.totalVowelNgrams := by
  unfold classifyEntry
  split_ifs <;> rfl

theorem classifyEntry_totalConsonantNgrams (cs : ClassifyState) (e : NGram × Int) :
    (classifyEntry cs e).totalConsonantNgrams =
      if isVowelNgram e.1 then cs.totalConsonantNgrams
      else if isConsonantNgram e.1 then cs.totalConsonantNgrams + e.2
      else cs.totalConsonantNgrams := by
  unfold classifyEntry
  split_ifs <;> rfl

theorem findWeight_foldl_classifyEntry_untouched (L : List (NGram × Int)) :
    ∀ (cs : ClassifyState) (k : NGram), (∀ e ∈ L, e.1 ≠ k) →
      findWeight (L.foldl classifyEntry cs).vowelNgrams k =
        findWeight cs.vowelNgrams k ∧
      findWeight (L.foldl classifyEntry cs).consonantNgrams k =
        findWeight cs.consonantNgrams k := by
  induction L with
  | nil => intro cs k _; exact ⟨rfl, rfl⟩
  | cons e rest ih =>
    intro cs k h
    have hek : e.1 ≠ k := h e (List.mem_cons_self e rest)
    have hkek : k ≠ e.1 := fun hk => hek hk.symm
    have hrest := ih (classifyEntry cs e) k
      (fun e2 he2 => h e2 (List.mem_cons_of_mem e he2))
    simp only [List.foldl_cons]
    refine ⟨hrest.1.trans ?_, hrest.2.trans ?_⟩
    · rw [classifyEntry_vowelNgrams]
      split_ifs with hv
      · exact findWeight_setWeight_ne _ _ _ _ hkek
      · rfl
    · rw [classifyEntry_consonantNgrams]
      split_ifs with hv hc
      · rfl
      · exact findWeight_setWeight_ne _ _ _ _ hkek
      · rfl

theorem vowel_keys_pure_foldl (L : List (NGram × Int)) :
    ∀ (cs : ClassifyState),
      (∀ k ∈ mapKeys cs.vowelNgrams, isVowelNgram k = true) →
      ∀ k ∈ mapKeys (L.foldl classifyEntry cs).vowelNgrams,
        isVowelNgram k = true := by
  induction L with
  | nil => intro cs h; exact h
  | cons e rest ih =>
    intro cs h
    simp only [List.foldl_cons]
    refine ih (classifyEntry cs e) ?_
    intro k hk
    rw [classifyEntry_vowelNgrams] at hk
    split_ifs at hk with hv
    · rcases (mem_mapKeys_setWeight _ _ _ _).mp hk with h1 | h1
      · exact h k h1
      · rw [h1]
        exact hv
    · exact h k hk

theorem consonant_keys_pure_foldl (L : List (NGram × Int)) :
    ∀ (cs : ClassifyState),
      (∀ k ∈ mapKeys cs.consonantNgrams,
        isVowelNgram k = false ∧ isConsonantNgram k = true) →
      ∀ k ∈ mapKeys (L.foldl classifyEntry cs).consonantNgrams,
        isVowelNgram k = false ∧ isConsonantNgram k = true := by
  induction L with
  | nil => intro cs h; exact h
  | cons e rest ih =>
    intro cs h
    simp only [List.foldl_cons]
    refine ih (classifyEntry cs e) ?_
    intro k hk
    rw [classifyEntry_consonantNgrams] at hk
    split_ifs at hk with hv hc
    · exact h k hk
    · rcases (mem_mapKeys_setWeight _ _ _ _).mp hk with h1 | h1
      · exact h k h1
      · rw [h1]
        exact ⟨by simpa using hv, hc⟩
    · exact h k hk

theorem classify_totals_foldl (L : List (NGram × Int)) :
    ∀ (cs : ClassifyState), (mapKeys L).Nodup →
      (∀ e ∈ L, e.1 ∉ mapKeys cs.vowelNgrams ∧ e.1 ∉ mapKeys cs.consonantNgrams) →
      cs.totalVowelNgrams = sumValues cs.vowelNgrams →
      cs.totalConsonantNgrams = sumValues cs.consonantNgrams →
      (L.foldl classifyEntry cs).totalVowelNgrams =
        sumValues (L.foldl classifyEntry cs).vowelNgrams ∧
      (L.foldl classifyEntry cs).totalConsonantNgrams =
        sumValues (L.foldl classifyEntry cs).consonantNgrams := by
  induction L with
  | nil => intro cs _ _ h1 h2; exact ⟨h1, h2⟩
  | cons e rest ih =>
    intro cs hnd hfresh h1 h2
    have hef := hfresh e (List.mem_cons_self e rest)
    have hndc : e.1 ∉ mapKeys rest ∧ (mapKeys rest).Nodup := by
      have : mapKeys (e :: rest) = e.1 :: mapKeys rest := by simp [mapKeys]
      rw [this] at hnd
      exact List.nodup_cons.mp hnd
    have hne : ∀ e2 ∈ rest, e2.1 ≠ e.1 := by
      intro e2 he2 hk
      exact hndc.1 (hk ▸ List.mem_map_of_mem Prod.fst he2)
    simp only [List.foldl_cons]
    refine ih (classifyEntry cs e) hndc.2 ?_ ?_ ?_
    · intro e2 he2
      have he2f := hfresh e2 (List.mem_cons_of_mem e he2)
      constructor
      · rw [classifyEntry_vowelNgrams]
        split_ifs with hv
        · intro hmem
          rcases (mem_mapKeys_setWeight _ _ _ _).mp hmem with h3 | h3
          · exact he2f.1 h3
          · exact hne e2 he2 h3
        · exact he2f.1
      · rw [classifyEntry_consonantNgrams]
        split_ifs with hv hc
        · exact he2f.2
        · intro hmem
          rcases (mem_mapKeys_setWeight _ _ _ _).mp hmem with h3 | h3
          · exact he2f.2 h3
          · exact hne e2 he2 h3
        · exact he2f.2
    · rw [classifyEntry_totalVowelNgrams, classifyEntry_vowelNgrams]
      split_ifs with hv
      · rw [sumValues_setWeight_of_not_mem _ _ _ hef.1, h1]
      · exact h1
    · rw [classifyEntry_totalConsonantNgrams, classifyEntry_consonantNgrams]
      split_ifs with hv hc
      · exact h2
      · rw [sumValues_setWeight_of_not_mem _ _ _ hef.2, h2]
      · exact h2

theorem classify_found_foldl (L : List (NGram × Int)) :
    ∀ (cs : ClassifyState), (mapKeys L).Nodup → ∀ e ∈ L,
      (isVowelNgram e.1 = true →
        findWeight (L.foldl classifyEntry cs).vowelNgrams e.1 = some e.2) ∧
      (isVowelNgram e.1 = false → isConsonantNgram e.1 = true →
        findWeight (L.foldl classifyEntry cs).consonantNgrams e.1 = some e.2) := by
  induction L with
  | nil => intro cs _ e he; cases he
  | cons e0 rest ih =>
    intro cs hnd e he
    have hndc : e0.1 ∉ mapKeys rest ∧ (mapKeys rest).Nodup := by
      have : mapKeys (e0 :: rest) = e0.1 :: mapKeys rest := by simp [mapKeys]
      rw [this] at hnd
      exact List.nodup_cons.mp hnd
    rw [List.mem_cons] at he
    simp only [List.foldl_cons]
    rcases he with rfl | he
    · have hne : ∀ e2 ∈ rest, e2.1 ≠ e.1 := by
        intro e2 he2 hk
        exact hndc.1 (hk ▸ List.mem_map_of_mem Prod.fst he2)
      have hunt := findWeight_foldl_classifyEntry_untouched rest
        (classifyEntry cs e) e.1 hne
      constructor
      · intro hv
        rw [hunt.1, classifyEntry_vowelNgrams, if_pos hv,
          findWeight_setWeight_self]
      · intro hv hc
        rw [hunt.2, classifyEntry_consonantNgrams,
          if_neg (by rw [hv]; exact Bool.false_ne_true), if_pos hc,
          findWeight_setWeight_self]
    · exact ih (classifyEntry cs e0) hndc.2 e he

theorem getD_eq_getElem {α : Type} (l : List α) (i : Nat) (d : α)
    (h : i < l.length) : l.getD i d = l[i] := by
  rw [List.getD_eq_getElem?_getD, List.getElem?_eq_getElem h]
  rfl

theorem mem_getD_mem_flatten {α : Type} {l : List (List α)} {n : Nat} {a : α}
    (h : a ∈ l.getD n []) : a ∈ l.flatten := by
  rcases lt_or_le n l.length with hn | hn
  · rw [getD_eq_getElem _ _ _ hn] at h
    exact List.mem_flatten.mpr ⟨l[n], List.getElem_mem hn, h⟩
  · rw [List.getD_eq_getElem?_getD, List.getElem?_eq_none hn] at h
    cases h

theorem analyze_flatten_keys_nodup (source : List (List Char × Int)) :
    (mapKeys ((analyze source).ngramMaps.flatten)).Nodup := by
  have h := analysisInv_analyze source
  show (((analyze source).ngramMaps.flatten).map Prod.fst).Nodup
  rw [List.map_flatten, List.nodup_flatten]
  constructor
  · intro l hl
    rw [List.mem_map] at hl
    obtain ⟨m, hm, rfl⟩ := hl
    rw [List.mem_iff_getElem] at hm
    obtain ⟨i, hi, rfl⟩ := hm
    rw [← getD_eq_getElem _ _ [] hi]
    exact h.nodup i
  · rw [List.pairwise_iff_getElem]
    intro i j hi hj hij
    simp only [List.length_map] at hi hj
    intro k hki hkj
    rw [List.getElem_map] at hki hkj
    rw [← getD_eq_getElem _ _ [] hi] at hki
    rw [← getD_eq_getElem _ _ [] hj] at hkj
    have h1 : k.length = i := h.keylen i k hki
    have h2 : k.length = j := h.keylen j k hkj
    omega

theorem findWeight_eq_none_of_not_mem {m : NGramMap} {k : NGram}
    (h : k ∉ mapKeys m) : findWeight m k = none := by
  by_contra hne
  exact h ((mem_mapKeys_iff_findWeight m k).mpr hne)

/-- C6: at the end of aggregation, for every n-gram length `n`, the sum of
all values in the length-`n` frequency table equals the separately tracked
total weight for length `n` — exact under the accumulation order used, since
both are incremented by the same weight each time an occurrence is counted
(modelled in the exact integer arithmetic of the `int64_t` variant). -/
theorem c6_table_sums_eq_totals (source : List (List Char × Int)) (n : Nat) :
    sumValues ((analyze source).ngramMaps.getD n []) =
      (analyze source).totalWeights.getD n 0 :=
  (analysisInv_analyze source).sums n

/-- C10: every key stored in the frequency table at index `n` has symbol
length exactly `n` (each counted n-gram is bucketed by the length of its
normalized symbol sequence), and the table at index 0 remains empty for
every input source. -/
theorem c10_keys_bucketed_by_normalized_length :
    (∀ (source : List (List Char × Int)) (n : Nat) (k : NGram),
      k ∈ mapKeys ((analyze source).ngramMaps.getD n []) → k.length = n) ∧
    (∀ source : List (List Char × Int),
      (analyze source).ngramMaps.getD 0 [] = []) :=
  ⟨fun source n k h => (analysisInv_analyze source).keylen n k h,
   fun source => (analysisInv_analyze source).zeroEmpty⟩

theorem c10_keys_bucketed_by_normalized_length_witness :
    (['b'] ∈ mapKeys ((analyze [(['a', 'b'], 2)]).ngramMaps.getD 1 []) ∧
      (['b'] : NGram).length = 1) ∧
    (analyze [(['a', 'b'], 2)]).ngramMaps.getD 0 [] = [] :=
  ⟨⟨by decide,
    c10_keys_bucketed_by_normalized_length.1 [(['a', 'b'], 2)] 1 ['b'] (by decide)⟩,
   c10_keys_bucketed_by_normalized_length.2 [(['a', 'b'], 2)]⟩

/-- C9: the normalizer never lengthens its input (the output symbol sequence
is at most as long as the input), and it is deterministic: it is a pure
function, so equal inputs always map to equal outputs. -/
theorem c9_normalize_length_le_and_deterministic :
    (∀ w : List Char, (replaceSpecialSequences w).length ≤ w.length) ∧
    (∀ w1 w2 : List Char, w1 = w2 →
      replaceSpecialSequences w1 = replaceSpecialSequences w2) :=
  ⟨length_replaceSpecialSequences, fun _ _ h => h ▸ rfl⟩

theorem c9_normalize_length_le_and_deterministic_witness :
    (replaceSpecialSequences ['b', 'o', 'y']).length ≤ 3 ∧
    (['b', 'o', 'y'] : List Char) = ['b', 'o', 'y'] ∧
    replaceSpecialSequences ['b', 'o', 'y'] =
      replaceSpecialSequences ['b', 'o', 'y'] :=
  ⟨c9_normalize_length_le_and_deterministic.1 ['b', 'o', 'y'], rfl,
   c9_normalize_length_le_and_deterministic.2 ['b', 'o', 'y'] ['b', 'o', 'y'] rfl⟩

/-- C3: after classification, the running total `totalVowelNgrams` equals the
sum of the values stored in the final vowel table, and `totalConsonantNgrams`
equals the sum of the values stored in the final consonant table: no weight
is double-counted (keys from tables of different lengths never collide, so
the overwriting placement never actually discards a prior value). -/
theorem c3_classification_totals_eq_table_sums (source : List (List Char × Int)) :
    (classify (analyze source).ngramMaps).totalVowelNgrams =
      sumValues (classify (analyze source).ngramMaps).vowelNgrams ∧
    (classify (analyze source).ngramMaps).totalConsonantNgrams =
      sumValues (classify (analyze source).ngramMaps).consonantNgrams := by
  rw [classify_eq_foldl_flatten]
  exact classify_totals_foldl _ ⟨[], [], 0, 0⟩ (analyze_flatten_keys_nodup source)
    (fun e _ => ⟨by simp [mapKeys], by simp [mapKeys]⟩) rfl rfl

/-- C7: the vowel table and the consonant table produced by classification
are disjoint: no key appears in both. -/
theorem c7_vowel_consonant_tables_disjoint (source : List (List Char × Int))
    (k : NGram)
    (hv : k ∈ mapKeys (classify (analyze source).ngramMaps).vowelNgrams) :
    k ∉ mapKeys (classify (analyze source).ngramMaps).consonantNgrams := by
  intro hc
  rw [classify_eq_foldl_flatten] at hv hc
  have h1 := vowel_keys_pure_foldl _ ⟨[], [], 0, 0⟩
    (by intro k2 hk2; simp [mapKeys] at hk2) k hv
  have h2 := consonant_keys_pure_foldl _ ⟨[], [], 0, 0⟩
    (by intro k2 hk2; simp [mapKeys] at hk2) k hc
  exact absurd (h1.symm.trans h2.1) (by simp)

theorem c7_vowel_consonant_tables_disjoint_witness :
    ['a'] ∈ mapKeys (classify (analyze [(['a'], 1)]).ngramMaps).vowelNgrams ∧
    ['a'] ∉ mapKeys (classify (analyze [(['a'], 1)]).ngramMaps).consonantNgrams :=
  ⟨by decide, c7_vowel_consonant_tables_disjoint [(['a'], 1)] ['a'] (by decide)⟩

theorem isVowelNgram_eq_false_of_isConsonant {k : NGram} (hne : k ≠ [])
    (hc : isConsonantNgram k = true) : isVowelNgram k = false := by
  have hdisj : ∀ c ∈ CONSONANTS, c ∉ VOWELS := by decide
  match k with
  | [] => exact absurd rfl hne
  | c :: rest =>
    rw [isConsonantNgram] at hc
    simp only [List.all_cons, Bool.and_eq_true, decide_eq_true_eq] at hc
    rw [isVowelNgram]
    simp only [List.all_cons, Bool.and_eq_false_iff]
    exact Or.inl (by simp [hdisj c hc.1])

theorem table_key_ne_nil {source : List (List Char × Int)} {n : Nat}
    {e : NGram × Int} (he : e ∈ (analyze source).ngramMaps.getD n []) :
    e.1 ≠ [] := by
  have hkeylen : e.1.length = n :=
    (analysisInv_analyze source).keylen n e.1 (List.mem_map_of_mem Prod.fst he)
  intro hnil
  rw [hnil] at hkeylen
  have hzero : n = 0 := by simpa using hkeylen.symm
  rw [hzero, (analysisInv_analyze source).zeroEmpty] at he
  cases he

/-- C5: for every n-gram in every per-length table, an all-vowel n-gram's
weight is assigned into the vowel table under that exact key (overwriting
semantics), an all-consonant n-gram's weight is assigned into the consonant
table likewise; and the final tables contain nothing else: any key that is
not all-vowel is absent from the vowel table and any key that is not
all-consonant is absent from the consonant table, so an n-gram with a
mixture of the two alphabets, or with a symbol in neither, is placed in
neither table. -/
theorem c5_classification_characterization (source : List (List Char × Int)) :
    (∀ (n : Nat) (e : NGram × Int), e ∈ (analyze source).ngramMaps.getD n [] →
      (isVowelNgram e.1 = true →
        findWeight (classify (analyze source).ngramMaps).vowelNgrams e.1 =
          some e.2) ∧
      (isConsonantNgram e.1 = true →
        findWeight (classify (analyze source).ngramMaps).consonantNgrams e.1 =
          some e.2)) ∧
    (∀ k : NGram, isVowelNgram k = false →
      findWeight (classify (analyze source).ngramMaps).vowelNgrams k = none) ∧
    (∀ k : NGram, isConsonantNgram k = false →
      findWeight (classify (analyze source).ngramMaps).consonantNgrams k = none) := by
  rw [classify_eq_foldl_flatten]
  refine ⟨?_, ?_, ?_⟩
  · intro n e he
    have hfound := classify_found_foldl _ ⟨[], [], 0, 0⟩
      (analyze_flatten_keys_nodup source) e (mem_getD_mem_flatten he)
    refine ⟨hfound.1, fun hc => ?_⟩
    exact hfound.2 (isVowelNgram_eq_false_of_isConsonant (table_key_ne_nil he) hc) hc
  · intro k hk
    apply findWeight_eq_none_of_not_mem
    intro hmem
    have hpure := vowel_keys_pure_foldl _ ⟨[], [], 0, 0⟩
      (by intro k2 hk2; simp [mapKeys] at hk2) k hmem
    exact Bool.noConfusion (hpure.symm.trans hk)
  · intro k hk
    apply findWeight_eq_none_of_not_mem
    intro hmem
    have hpure := consonant_keys_pure_foldl _ ⟨[], [], 0, 0⟩
      (by intro k2 hk2; simp [mapKeys] at hk2) k hmem
    exact Bool.noConfusion (hpure.2.symm.trans hk)

theorem c5_classification_characterization_witness :
    ((['o'], (1 : Int)) ∈ (analyze [(['b', 'o', 'y'], 1)]).ngramMaps.getD 1 [] ∧
      isVowelNgram ['o'] = true ∧
      findWeight (classify (analyze [(['b', 'o', 'y'], 1)]).ngramMaps).vowelNgrams
        ['o'] = some 1) ∧
    ((['b'], (1 : Int)) ∈ (analyze [(['b', 'o', 'y'], 1)]).ngramMaps.getD 1 [] ∧
      isConsonantNgram ['b'] = true ∧
      findWeight (classify (analyze [(['b', 'o', 'y'], 1)]).ngramMaps).consonantNgrams
        ['b'] = some 1) ∧
    (isVowelNgram ['x'] = false ∧
      findWeight (classify (analyze [(['b', 'o', 'y'], 1)]).ngramMaps).vowelNgrams
        ['x'] = none) ∧
    (isConsonantNgram ['o'] = false ∧
      findWeight (classify (analyze [(['b', 'o', 'y'], 1)]).ngramMaps).consonantNgrams
        ['o'] = none) :=
  ⟨⟨by decide, by decide,
    ((c5_classification_characterization [(['b', 'o', 'y'], 1)]).1 1 (['o'], 1)
      (by decide)).1 (by decide)⟩,
   ⟨by decide, by decide,
    ((c5_classification_characterization [(['b', 'o', 'y'], 1)]).1 1 (['b'], 1)
      (by decide)).2 (by decide)⟩,
   ⟨by decide,
    (c5_classification_characterization [(['b', 'o', 'y'], 1)]).2.1 ['x'] (by decide)⟩,
   ⟨by decide,
    (c5_classification_characterization [(['b', 'o', 'y'], 1)]).2.2 ['o'] (by decide)⟩⟩

/-- C8: for every length `n` and every `topK` in [1, 100], the number of
entries the human-readable report prints for length `n` is
`min topK (distinct count)`, and when `topK` exceeds the distinct n-gram
count at that length exactly the existing entries are printed (a permutation
of the whole table — no padding and no error). -/
theorem c8_topk_prints_min (source : List (List Char × Int)) (n topK : Nat)
    (_h1 : 1 ≤ topK) (_h2 : topK ≤ 100) :
    (displayedEntries ((analyze source).ngramMaps.getD n []) topK).length =
      min topK ((analyze source).ngramMaps.getD n []).length ∧
    (((analyze source).ngramMaps.getD n []).length < topK →
      (displayedEntries ((analyze source).ngramMaps.getD n []) topK).Perm
        ((analyze source).ngramMaps.getD n [])) := by
  constructor
  · simp only [displayedEntries, sortedByWeight, List.length_take,
      List.length_mergeSort]
    omega
  · intro hlt
    have hmin : min topK ((analyze source).ngramMaps.getD n []).length =
        ((analyze source).ngramMaps.getD n []).length := by omega
    have hlen : (((analyze source).ngramMaps.getD n []).mergeSort
        fun a b => decide (b.2 ≤ a.2)).length =
        ((analyze source).ngramMaps.getD n []).length :=
      List.length_mergeSort _
    rw [displayedEntries, hmin, sortedByWeight, ← hlen, List.take_length]
    exact List.mergeSort_perm _ _

theorem c8_topk_prints_min_witness :
    1 ≤ 10 ∧ 10 ≤ 100 ∧
    ((displayedEntries ((analyze [(['a', 'b'], 3)]).ngramMaps.getD 1 []) 10).length =
      min 10 ((analyze [(['a', 'b'], 3)]).ngramMaps.getD 1 []).length) ∧
    ((analyze [(['a', 'b'], 3)]).ngramMaps.getD 1 []).length < 10 ∧
    (displayedEntries ((analyze [(['a', 'b'], 3)]).ngramMaps.getD 1 []) 10).Perm
      ((analyze [(['a', 'b'], 3)]).ngramMaps.getD 1 []) :=
  ⟨by decide, by decide,
   (c8_topk_prints_min [(['a', 'b'], 3)] 1 10 (by decide) (by decide)).1,
   by decide,
   (c8_topk_prints_min [(['a', 'b'], 3)] 1 10 (by decide) (by decide)).2 (by decide)⟩

/-- C1 is false as stated: for the single-word source {("boy", 1)} the code
enumerates the substrings of the RAW word and normalizes each one
separately, so the length-1 total is 3 (entries b:1, o:1, y:1), the key 'o'
is present with weight 1, and the key 'Y' is not present at all —
contradicting the claimed length-1 table {b:1, Y:1} with total 2. -/
theorem c1_counterexample :
    (analyze [(['b', 'o', 'y'], 1)]).totalWeights.getD 1 0 = 3 ∧
    findWeight ((analyze [(['b', 'o', 'y'], 1)]).ngramMaps.getD 1 []) ['o'] =
      some 1 ∧
    findWeight ((analyze [(['b', 'o', 'y'], 1)]).ngramMaps.getD 1 []) ['Y'] =
      none := by
  decide

/-- C1 amended: for every (word, weight) pair the aggregator enumerates every
contiguous substring of the RAW word (lengths 1 to the raw length, every
offset), normalizes each substring with `replaceSpecialSequences`, and adds
the weight to the table indexed by the NORMALIZED substring's length.  For
the source {("boy", 1)} this yields the length-1 table {b:1, o:1, y:1} with
total 3, the length-2 table {bo:1, oY:1} with total 2, and the length-3
table {boY:1} with total 1. -/
theorem c1_amended_boy_scenario :
    (analyze [(['b', 'o', 'y'], 1)]).ngramMaps =
      [[], [(['b'], 1), (['o'], 1), (['y'], 1)],
       [(['b', 'o'], 1), (['o', 'Y'], 1)],
       [(['b', 'o', 'Y'], 1)]] ∧
    (analyze [(['b', 'o', 'y'], 1)]).totalWeights = [0, 3, 2, 1] := by
  decide

/-- C4 is false as stated: the y-merge emits the triggering character AND the
'Y' symbol (only "qu" shortens the output), so normalize("cry") is
['c','r','Y'], not ['c','Y']. -/
theorem c4_counterexample :
    ¬(replaceSpecialSequences ['c', 'r', 'y'] = ['c', 'Y']) := by
  decide

/-- C4 amended: the normalizer maps "qu" to [Q], "quit" to [Q,'i','t'],
"cry" to ['c','r',Y] ('c' and 'r' are consonants, the final y merges with
the preceding 'r'), "boy" to ['b','o',Y] ('o' is a vowel trigger for y, the
'o' itself is kept), "cow" to ['c','o',W], and "cat" to ['c','a','t']
unchanged. -/
theorem c4_amended_normalize_examples :
    replaceSpecialSequences ['q', 'u'] = ['Q'] ∧
    replaceSpecialSequences ['q', 'u', 'i', 't'] = ['Q', 'i', 't'] ∧
    replaceSpecialSequences ['c', 'r', 'y'] = ['c', 'r', 'Y'] ∧
    replaceSpecialSequences ['b', 'o', 'y'] = ['b', 'o', 'Y'] ∧
    replaceSpecialSequences ['c', 'o', 'w'] = ['c', 'o', 'W'] ∧
    replaceSpecialSequences ['c', 'a', 't'] = ['c', 'a', 't'] := by
  decide
